import Mathlib

/-!
# Verification of the LLH grid-scan driver (`pisa/analysis/llr/RunLLHScan.py`)

Shallow embedding of the scan driver's data model and control flow.
Parameter and likelihood values are modelled as rationals (`ℚ`); the script's
dictionaries become association lists keyed by `String`.

The script under `src/` is the authority.  Helpers that live outside `src/`
(`calc_steps`, `fix_atm_params`, `get_atm_params`, `find_opt_scipy`,
`get_asimov_fmap`, `select_hierarchy`) are modelled from the spec and from the
call sites' own comments; each such definition says so in its doc comment.
-/

namespace LLHScan

/-- One entry of the `params` dictionary: current `value`, `fixed` flag, the
scan `range` (modelled as `rangeLo`/`rangeHi`) and, after `calc_steps` has
run, the expanded list of grid values under `steps`
(`param['steps']` in the script). -/
structure ParamSpec where
  value : ℚ
  fixed : Bool
  rangeLo : ℚ
  rangeHi : ℚ
  steps : List ℚ
deriving DecidableEq

/-- The dictionary returned by `find_opt_scipy` (external collaborator).
Modelled from the spec: the evaluator returns a likelihood trajectory
(`llh_data['llh']`, an ordered sequence of floats) together with the fitted
nuisance-parameter values; the driver reads only `llh_data['llh'][-1]`. -/
structure LLHData where
  llh : List ℚ
  fitted : List (String × ℚ)
deriving DecidableEq

/-- Association-list lookup, the embedding of a Python dict read `d[k]`. -/
def alookup (k : String) : List (String × α) → Option α
  | [] => none
  | q :: rest => if q.1 = k then some q.2 else alookup k rest

/-- `hypo_params[k]['value'] = v`: overwrite the `value` field of the entry
named `k` (the script only ever assigns keys that are already present). -/
def updateValue (ps : List (String × ParamSpec)) (k : String) (v : ℚ) :
    List (String × ParamSpec) :=
  ps.map fun q => if q.1 = k then (q.1, { q.2 with value := v }) else q

/-- `steps[k].append(v)`: append `v` to the sequence stored under key `k`. -/
def appendStep (st : List (String × List ℚ)) (k : String) (v : ℚ) :
    List (String × List ℚ) :=
  st.map fun q => if q.1 = k then (q.1, q.2 ++ [v]) else q

/-- Mutable state of the scan loop: the `hypo_params` dictionary, the `steps`
accumulator (scanned-parameter keys plus `"llh"`), and — as observable
instrumentation of the run — the list of `hypo_params` snapshots passed to
`find_opt_scipy`, one per evaluator invocation. -/
structure ScanState where
  hypoParams : List (String × ParamSpec)
  steps : List (String × List ℚ)
  trace : List (List (String × ParamSpec))
deriving DecidableEq

/-- The body `for k,v in pos_dict.items(): hypo_params[k]['value'] = v;
steps[k].append(v)` for one scan point `pos`. -/
def applyPos (s : ScanState) (pos : List (String × ℚ)) : ScanState :=
  pos.foldl
    (fun s kv =>
      { s with
        hypoParams := updateValue s.hypoParams kv.1 kv.2
        steps := appendStep s.steps kv.1 kv.2 })
    s

/-- The scan loop `for pos in product(*steplist): ...`.  The evaluator `f`
models `find_opt_scipy`; `Except.error` on its result models the call raising
an exception.  An exception propagates out of the script uncaught, so the
run's result carries the loop state at the moment of the exception (an
`IndexError` from `llh_data['llh'][-1]` on an empty trajectory likewise). -/
def runScanAux (f : List (String × ParamSpec) → Except Unit LLHData) :
    List (List (String × ℚ)) → ScanState → Except ScanState ScanState
  | [], s => .ok s
  | pos :: rest, s =>
    let s1 := applyPos s pos
    let s2 : ScanState := { s1 with trace := s1.trace ++ [s1.hypoParams] }
    match f s2.hypoParams with
    | .error _ => .error s2
    | .ok d =>
      match d.llh.getLast? with
      | none => .error s2
      | some v => runScanAux f rest { s2 with steps := appendStep s2.steps "llh" v }

/-- `sorted(atm_params.items())`: the items sorted by parameter name
(names are distinct dict keys, so tuple order is name order; Python compares
strings lexicographically by code point, i.e. by their character lists). -/
def sortedAtm (m : List (String × ParamSpec)) : List (String × ParamSpec) :=
  List.insertionSort (fun a b => a.1.data ≤ b.1.data) m

/-- `steplist = [[(name,step) for step in param['steps']]
                 for name, param in sorted(atm_params.items())]`. -/
def steplist (m : List (String × ParamSpec)) : List (List (String × ℚ)) :=
  (sortedAtm m).map fun q => q.2.steps.map fun s => (q.1, s)

/-- `itertools.product`: Cartesian product of a list of lists, first factor
varying slowest, last factor varying fastest; the product of no factors is
the single empty tuple. -/
def listProd : List (List α) → List (List α)
  | [] => [[]]
  | xs :: rest => xs.flatMap fun x => (listProd rest).map (x :: ·)

/-- The sequence of scan points the driver iterates over. -/
def scanPoints (m : List (String × ParamSpec)) : List (List (String × ℚ)) :=
  listProd (steplist m)

/-- `steps = {key:[] for key in atm_params.keys()}; steps['llh'] = []`. -/
def initSteps (m : List (String × ParamSpec)) : List (String × List ℚ) :=
  (m.map fun q => (q.1, ([] : List ℚ))) ++ [("llh", [])]

/-- Loop state just before the first iteration. -/
def initState (hypo m : List (String × ParamSpec)) : ScanState :=
  { hypoParams := hypo, steps := initSteps m, trace := [] }

/-- The whole scan: enumerate `product(*steplist)` and run the loop. -/
def runScan (f : List (String × ParamSpec) → Except Unit LLHData)
    (hypo m : List (String × ParamSpec)) : Except ScanState ScanState :=
  runScanAux f (scanPoints m) (initState hypo m)

/-- An evaluator that always returns normally (no exception raised). -/
def okEval (g : List (String × ParamSpec) → LLHData) :
    List (String × ParamSpec) → Except Unit LLHData :=
  fun p => .ok (g p)

/-- The sequence accumulated under key `k` (`steps[k]`). -/
def getSeq (st : List (String × List ℚ)) (k : String) : List ℚ :=
  (alookup k st).getD []

/-- Overwrite a parameter's `value` when an assignment happened. -/
def setVal (p : ParamSpec) : Option ℚ → ParamSpec
  | none => p
  | some v => { p with value := v }

/-- The last value assigned to key `k` by the point `pos` (Python dict
semantics: a later assignment to the same key wins). -/
def lastAssign (k : String) : List (String × ℚ) → Option ℚ
  | [] => none
  | kv :: rest =>
    match lastAssign k rest with
    | some v => some v
    | none => if kv.1 = k then some kv.2 else none

/-- The `hypo_params` updates performed by one scan point, in isolation. -/
def updateValues (ps : List (String × ParamSpec)) (pos : List (String × ℚ)) :
    List (String × ParamSpec) :=
  pos.foldl (fun ps kv => updateValue ps kv.1 kv.2) ps

/-- The scan loop restricted to runs in which every evaluator call returns
normally; `runScanAux` over `okEval g` agrees with it (see
`runScanAux_okEval`).  The appended likelihood is `llh_data['llh'][-1]`. -/
def runScanOk (g : List (String × ParamSpec) → LLHData) :
    List (List (String × ℚ)) → ScanState → ScanState
  | [], s => s
  | pos :: rest, s =>
    let s1 := applyPos s pos
    let s2 : ScanState := { s1 with trace := s1.trace ++ [s1.hypoParams] }
    runScanOk g rest
      { s2 with steps := appendStep s2.steps "llh" ((g s2.hypoParams).llh.getLast?.getD 0) }

/-- The alphabetically sorted scanned-parameter names. -/
def sortedNames (m : List (String × ParamSpec)) : List String :=
  (sortedAtm m).map Prod.fst

/-- Modelled from the spec: the Step Expander behind `calc_steps`
(`pisa.analysis.scan.Scan`, not under `src/`).  "`expand(range, step_count)`
-> ordered sequence of floats, length == `step_count`, ... first element ==
`range.min`, last element == `range.max` when `step_count > 1`; for
`step_count == 1` returns a single-element sequence equal to `range.min`.
Spacing is linear by default." -/
def expandSteps (lo hi : ℚ) (n : ℕ) : List ℚ :=
  if n = 1 then [lo]
  else (List.range n).map fun i => lo + i * (hi - lo) / ((n : ℚ) - 1)

/-- Modelled from the spec and the call site: `fix_atm_params`
(`pisa.utils.params`, not under `src/`) backs the script's
"Make sure that atmospheric parameters are fixed" step ("Ensuring that
atmospheric parameters are fixed for this analysis"): it returns the params
with every atmospheric parameter's `fixed` flag forced to `true`. -/
def fix_atm_params (atmNames : List String) (ps : List (String × ParamSpec)) :
    List (String × ParamSpec) :=
  ps.map fun q => if q.1 ∈ atmNames then (q.1, { q.2 with fixed := true }) else q

/-- The persisted output bundle (`results` in the script): the three input
settings documents, the two hierarchy tags, the Asimov dataset stored under
`results[data_tag]['asimov_data']`, and — when at least one scan point ran —
the `steps` accumulator stored under `results[data_tag][hypo_tag]` (the
script assigns that key inside the loop, so zero iterations leave it absent).
Settings documents and histograms are opaque to the driver: types `σ`, `τ`. -/
structure Results (σ τ : Type) where
  templateSettings : σ
  minimizerSettings : σ
  gridSettings : σ
  dataTag : String
  hypoTag : String
  asimovData : τ
  scan : Option (List (String × List ℚ))

/-- The whole script after settings load: force the atmospheric parameters
fixed, build the Asimov dataset once (`get_asimov_fmap`, opaque builder
argument), run the scan, and bundle everything for `fileio.to_file`.
`select_hierarchy` (not under `src/`) is elided: `m` is the already
hierarchy-selected atmospheric parameter collection with expanded `steps`.
An uncaught evaluator exception aborts the script before any output is
written (`Except.error`). -/
def runFull (ts ms gs : σ) (asimovBuild : List (String × ParamSpec) → τ)
    (dataTag hypoTag : String) (atmNames : List String)
    (params m : List (String × ParamSpec))
    (f : List (String × ParamSpec) → Except Unit LLHData) :
    Except ScanState (Results σ τ) :=
  let params1 := fix_atm_params atmNames params
  let asimov := asimovBuild params1
  match runScanAux f (scanPoints m) (initState params1 m) with
  | .error s => .error s
  | .ok s =>
    .ok { templateSettings := ts, minimizerSettings := ms, gridSettings := gs,
          dataTag := dataTag, hypoTag := hypoTag, asimovData := asimov,
          scan := if (scanPoints m).isEmpty then none else some s.steps }

/-! ### Concrete fixtures used by witnesses and counterexamples -/

/-- A parameter record with the given value and grid. -/
def mkP (v : ℚ) (st : List ℚ) : ParamSpec :=
  { value := v, fixed := false, rangeLo := 0, rangeHi := 1, steps := st }

/-- A constant well-behaved evaluator. -/
def gConst : List (String × ParamSpec) → LLHData :=
  fun _ => { llh := [5], fitted := [] }

/-- An evaluator that always raises. -/
def fErr : List (String × ParamSpec) → Except Unit LLHData :=
  fun _ => .error ()

/-- Two scanned parameters for the `C1` witness: `a` with grid `[1, 2]`,
`b` with grid `[3]`. -/
def atmW1 : List (String × ParamSpec) := [("a", mkP 0 [1, 2]), ("b", mkP 0 [3])]

/-- `theta23`, range `(0.35, 0.65)`, `steps = 3`, expanded grid
`[0.35, 0.5, 0.65]` (rationals: `7/20, 1/2, 13/20`). -/
def pTheta23 : ParamSpec :=
  { value := mkRat 7 20, fixed := false, rangeLo := mkRat 7 20,
    rangeHi := mkRat 13 20, steps := [mkRat 7 20, mkRat 1 2, mkRat 13 20] }

/-- `deltam31`, range `(0.002, 0.003)`, `steps = 2`, expanded grid
`[0.002, 0.003]` (rationals: `1/500, 3/1000`). -/
def pDeltam31 : ParamSpec :=
  { value := mkRat 1 500, fixed := false, rangeLo := mkRat 1 500,
    rangeHi := mkRat 3 1000, steps := [mkRat 1 500, mkRat 3 1000] }

/-- The two scanned parameters of the spec's end-to-end scenario. -/
def atmC2 : List (String × ParamSpec) :=
  [("theta23", pTheta23), ("deltam31", pDeltam31)]

/-- One scanned parameter with a two-point grid (`C3`). -/
def atmC3 : List (String × ParamSpec) := [("p", mkP 0 [1, 2])]

/-- One scanned parameter with a two-point grid (`C4`). -/
def atmC4 : List (String × ParamSpec) := [("q", mkP 0 [4, 5])]

/-- One scanned parameter with a one-point grid (`C5`). -/
def atmC5 : List (String × ParamSpec) := [("r", mkP 0 [1])]

/-- An evaluator reporting fitted nuisance values. -/
def g5a : List (String × ParamSpec) → LLHData :=
  fun _ => { llh := [3], fitted := [("nuisance", 42)] }

/-- The same likelihoods as `g5a` but no fitted values. -/
def g5b : List (String × ParamSpec) → LLHData :=
  fun _ => { llh := [3], fitted := [] }

/-- One scanned parameter whose expanded sequence is empty (`C6`). -/
def atmC6 : List (String × ParamSpec) := [("w", mkP 0 [])]

/-- A configuration in which the scanned parameter `theta23` is already
marked `fixed` before the scan starts (`C7`). -/
def paramsC7 : List (String × ParamSpec) :=
  [("theta23", { value := 0, fixed := true, rangeLo := 0, rangeHi := 1, steps := [1, 2] }),
   ("nuis", mkP 7 [])]

/-- The scanned-parameter collection for the `C7` run. -/
def atmC7 : List (String × ParamSpec) := [("theta23", mkP 0 [1, 2])]

/-- Nuisance-only parameter collection for the empty-scan run (`C10`). -/
def hypoC10 : List (String × ParamSpec) := [("x", mkP 3 [])]

/-- The loop state at the moment the evaluator raises on the first point of
the `atmC3` scan (computed by evaluation; checked by the kernel below). -/
def errC3 : ScanState :=
  { hypoParams := [("p", { value := 1, fixed := false, rangeLo := 0, rangeHi := 1, steps := [1, 2] })],
    steps := [("p", [1]), ("llh", [])],
    trace := [[("p", { value := 1, fixed := false, rangeLo := 0, rangeHi := 1, steps := [1, 2] })]] }

/-- The loop state at the moment the evaluator raises on the first point of
the `atmC4` scan. -/
def errC4 : ScanState :=
  { hypoParams := [("q", { value := 4, fixed := false, rangeLo := 0, rangeHi := 1, steps := [4, 5] })],
    steps := [("q", [4]), ("llh", [])],
    trace := [[("q", { value := 4, fixed := false, rangeLo := 0, rangeHi := 1, steps := [4, 5] })]] }

/-- Project the loop state out of a finished or aborted run. -/
def resultState : Except ScanState ScanState → ScanState
  | .ok s => s
  | .error s => s

instance : IsTotal (String × ParamSpec) (fun a b => a.1.data ≤ b.1.data) :=
  ⟨fun a b => le_total a.1.data b.1.data⟩

instance : IsTrans (String × ParamSpec) (fun a b => a.1.data ≤ b.1.data) :=
  ⟨fun _ _ _ h1 h2 => le_trans h1 h2⟩

/-! ### Association-list lemmas -/

theorem alookup_keyed_map (f : String → α → β) (ps : List (String × α)) (k : String) :
    alookup k (ps.map fun q => (q.1, f q.1 q.2)) = (alookup k ps).map (f k) := by
  induction ps with
  | nil => rfl
  | cons q rest ih =>
    by_cases h : q.1 = k
    · subst h; simp [alookup]
    · simp [alookup, h, ih]

theorem alookup_isSome_iff (ps : List (String × α)) (k : String) :
    (alookup k ps).isSome ↔ k ∈ ps.map Prod.fst := by
  induction ps with
  | nil => simp [alookup]
  | cons q rest ih =>
    by_cases h : q.1 = k
    · subst h; simp [alookup]
    · simp [alookup, h, ih, Ne.symm h]

theorem keys_keyed_map (f : String → α → β) (ps : List (String × α)) :
    (ps.map fun q => (q.1, f q.1 q.2)).map Prod.fst = ps.map Prod.fst := by
  simp [List.map_map, Function.comp]

/-! ### One-point update lemmas -/

theorem appendStep_eq_map (st : List (String × List ℚ)) (k : String) (v : ℚ) :
    appendStep st k v = st.map fun kl => (kl.1, kl.2 ++ if kl.1 = k then [v] else []) := by
  unfold appendStep
  apply List.map_congr_left
  intro q _
  by_cases h : q.1 = k <;> simp [h]

theorem updateValue_eq_map (ps : List (String × ParamSpec)) (k : String) (v : ℚ) :
    updateValue ps k v =
      ps.map fun q => (q.1, if q.1 = k then { q.2 with value := v } else q.2) := by
  unfold updateValue
  apply List.map_congr_left
  intro q _
  by_cases h : q.1 = k <;> simp [h]

theorem applyPos_nil (s : ScanState) : applyPos s [] = s := rfl

theorem applyPos_cons (s : ScanState) (kv : String × ℚ) (pos : List (String × ℚ)) :
    applyPos s (kv :: pos) =
      applyPos { s with hypoParams := updateValue s.hypoParams kv.1 kv.2,
                        steps := appendStep s.steps kv.1 kv.2 } pos := rfl

theorem applyPos_trace (s : ScanState) (pos : List (String × ℚ)) :
    (applyPos s pos).trace = s.trace := by
  induction pos generalizing s with
  | nil => rfl
  | cons kv rest ih => rw [applyPos_cons, ih]

theorem applyPos_hypoParams (s : ScanState) (pos : List (String × ℚ)) :
    (applyPos s pos).hypoParams = updateValues s.hypoParams pos := by
  induction pos generalizing s with
  | nil => rfl
  | cons kv rest ih => rw [applyPos_cons, ih]; rfl

theorem lastAssign_nil (k : String) : lastAssign k [] = none := rfl

theorem lastAssign_eq_none_of_not_mem {k : String} {pos : List (String × ℚ)}
    (h : k ∉ pos.map Prod.fst) : lastAssign k pos = none := by
  induction pos with
  | nil => rfl
  | cons kv rest ih =>
    simp only [List.map_cons, List.mem_cons, not_or] at h
    rw [lastAssign, ih h.2]
    simp [Ne.symm h.1]

theorem lastAssign_of_nodup {k : String} {v : ℚ} {pos : List (String × ℚ)}
    (hnd : (pos.map Prod.fst).Nodup) (hmem : (k, v) ∈ pos) :
    lastAssign k pos = some v := by
  induction pos with
  | nil => cases hmem
  | cons kv rest ih =>
    simp only [List.map_cons, List.nodup_cons] at hnd
    rcases List.mem_cons.mp hmem with h | h
    · subst h
      rw [lastAssign, lastAssign_eq_none_of_not_mem hnd.1]
      simp
    · rw [lastAssign, ih hnd.2 h]

theorem updateValues_eq_map (ps : List (String × ParamSpec)) (pos : List (String × ℚ)) :
    updateValues ps pos = ps.map fun q => (q.1, setVal q.2 (lastAssign q.1 pos)) := by
  induction pos generalizing ps with
  | nil =>
    simp [updateValues, lastAssign_nil, setVal]
  | cons kv rest ih =>
    have hstep : updateValues ps (kv :: rest) = updateValues (updateValue ps kv.1 kv.2) rest := rfl
    rw [hstep, ih, updateValue_eq_map, List.map_map]
    apply List.map_congr_left
    intro q _
    obtain ⟨k, p⟩ := q
    simp only [Function.comp]
    by_cases h : k = kv.1
    · subst h
      rcases hrest : lastAssign kv.1 rest with _ | v <;> simp [lastAssign, hrest, setVal]
    · rcases hrest : lastAssign k rest with _ | v <;>
        simp [lastAssign, hrest, h, Ne.symm h, setVal]

theorem setVal_fixed (p : ParamSpec) (o : Option ℚ) : (setVal p o).fixed = p.fixed := by
  cases o <;> rfl

theorem updateValues_keys (ps : List (String × ParamSpec)) (pos : List (String × ℚ)) :
    (updateValues ps pos).map Prod.fst = ps.map Prod.fst := by
  rw [updateValues_eq_map]
  simp [List.map_map, Function.comp]

theorem alookup_updateValues (ps : List (String × ParamSpec)) (pos : List (String × ℚ))
    (k : String) :
    alookup k (updateValues ps pos) =
      (alookup k ps).map fun p => setVal p (lastAssign k pos) := by
  rw [updateValues_eq_map]
  exact alookup_keyed_map (fun k p => setVal p (lastAssign k pos)) ps k

theorem alookup_of_mem_nodup {ps : List (String × α)} (hnd : (ps.map Prod.fst).Nodup)
    {q : String × α} (hq : q ∈ ps) : alookup q.1 ps = some q.2 := by
  induction ps with
  | nil => cases hq
  | cons r rest ih =>
    simp only [List.map_cons, List.nodup_cons] at hnd
    rcases List.mem_cons.mp hq with h | h
    · subst h; simp [alookup]
    · have hne : r.1 ≠ q.1 := fun he => hnd.1 (he ▸ List.mem_map_of_mem Prod.fst h)
      simp [alookup, hne, ih hnd.2 h]

theorem filter_key_eq_nil {k : String} {pos : List (String × ℚ)}
    (h : k ∉ pos.map Prod.fst) : pos.filter (fun kv => kv.1 = k) = [] := by
  induction pos with
  | nil => rfl
  | cons kv rest ih =>
    simp only [List.map_cons, List.mem_cons, not_or] at h
    simp [List.filter_cons, Ne.symm h.1, ih h.2]

theorem filter_key_singleton {k : String} {v : ℚ} {pos : List (String × ℚ)}
    (hnd : (pos.map Prod.fst).Nodup) (hmem : (k, v) ∈ pos) :
    pos.filter (fun kv => kv.1 = k) = [(k, v)] := by
  induction pos with
  | nil => cases hmem
  | cons kv0 rest ih =>
    simp only [List.map_cons, List.nodup_cons] at hnd
    rcases List.mem_cons.mp hmem with h | h
    · subst h
      simp [List.filter_cons, filter_key_eq_nil hnd.1]
    · have hk : k ∈ rest.map Prod.fst := List.mem_map_of_mem Prod.fst h
      have hne : kv0.1 ≠ k := fun he => hnd.1 (he ▸ hk)
      simp [List.filter_cons, hne, ih hnd.2 h]

/-! ### Effect of one scan point on the accumulator -/

theorem applyPos_steps (s : ScanState) (pos : List (String × ℚ)) :
    (applyPos s pos).steps = s.steps.map fun kl =>
      (kl.1, kl.2 ++ (pos.filter fun kv => kv.1 = kl.1).map Prod.snd) := by
  induction pos generalizing s with
  | nil => simp [applyPos_nil]
  | cons kv rest ih =>
    rw [applyPos_cons, ih]
    show (appendStep s.steps kv.1 kv.2).map _ = _
    rw [appendStep_eq_map, List.map_map]
    apply List.map_congr_left
    intro q _
    obtain ⟨k, l⟩ := q
    simp only [Function.comp]
    by_cases h : k = kv.1
    · subst h
      simp [List.filter_cons]
    · simp [List.filter_cons, h, Ne.symm h]

theorem alookup_appendStep (st : List (String × List ℚ)) (k k' : String) (v : ℚ) :
    alookup k (appendStep st k' v) =
      (alookup k st).map fun l => l ++ if k = k' then [v] else [] := by
  rw [appendStep_eq_map]
  exact alookup_keyed_map (fun k l => l ++ if k = k' then [v] else []) st k

theorem alookup_applyPos_steps (s : ScanState) (pos : List (String × ℚ)) (k : String) :
    alookup k (applyPos s pos).steps =
      (alookup k s.steps).map fun l => l ++ (pos.filter fun kv => kv.1 = k).map Prod.snd := by
  rw [applyPos_steps]
  exact alookup_keyed_map (fun k l => l ++ (pos.filter fun kv => kv.1 = k).map Prod.snd) s.steps k

theorem applyPos_steps_keys (s : ScanState) (pos : List (String × ℚ)) :
    (applyPos s pos).steps.map Prod.fst = s.steps.map Prod.fst := by
  rw [applyPos_steps]
  simp [List.map_map, Function.comp]

/-! ### The scan loop on an exception-free run -/

theorem runScanOk_nil (g : List (String × ParamSpec) → LLHData) (s : ScanState) :
    runScanOk g [] s = s := rfl

theorem runScanOk_cons (g : List (String × ParamSpec) → LLHData)
    (pos : List (String × ℚ)) (rest : List (List (String × ℚ))) (s : ScanState) :
    runScanOk g (pos :: rest) s =
      runScanOk g rest
        { hypoParams := (applyPos s pos).hypoParams,
          steps := appendStep (applyPos s pos).steps "llh"
            ((g (applyPos s pos).hypoParams).llh.getLast?.getD 0),
          trace := (applyPos s pos).trace ++ [(applyPos s pos).hypoParams] } := rfl

theorem runScanAux_okEval (g : List (String × ParamSpec) → LLHData)
    (htraj : ∀ p, (g p).llh ≠ []) :
    ∀ (pts : List (List (String × ℚ))) (s : ScanState),
      runScanAux (okEval g) pts s = .ok (runScanOk g pts s) := by
  intro pts
  induction pts with
  | nil => intro s; rfl
  | cons pos rest ih =>
    intro s
    rw [runScanAux, runScanOk_cons]
    simp only [okEval]
    rcases h : (g (applyPos s pos).hypoParams).llh.getLast? with _ | v
    · exact absurd (List.getLast?_eq_none_iff.mp h) (htraj _)
    · simpa using ih _

theorem runScanOk_trace (g : List (String × ParamSpec) → LLHData) :
    ∀ (pts : List (List (String × ℚ))) (s : ScanState),
      ∃ tl, (runScanOk g pts s).trace = s.trace ++ tl ∧ tl.length = pts.length := by
  intro pts
  induction pts with
  | nil => intro s; exact ⟨[], by simp [runScanOk_nil]⟩
  | cons pos rest ih =>
    intro s
    rw [runScanOk_cons]
    obtain ⟨tl, h1, h2⟩ := ih _
    refine ⟨(applyPos s pos).hypoParams :: tl, ?_, by simp [h2]⟩
    rw [h1]
    simp [applyPos_trace]

theorem runScanOk_steps_keys (g : List (String × ParamSpec) → LLHData) :
    ∀ (pts : List (List (String × ℚ))) (s : ScanState),
      (runScanOk g pts s).steps.map Prod.fst = s.steps.map Prod.fst := by
  intro pts
  induction pts with
  | nil => intro s; rfl
  | cons pos rest ih =>
    intro s
    rw [runScanOk_cons, ih]
    show (appendStep _ _ _).map Prod.fst = _
    rw [appendStep_eq_map, List.map_map]
    exact (List.map_congr_left fun q _ => rfl).trans (applyPos_steps_keys s pos)

theorem runScanOk_hypo_keys (g : List (String × ParamSpec) → LLHData) :
    ∀ (pts : List (List (String × ℚ))) (s : ScanState),
      (runScanOk g pts s).hypoParams.map Prod.fst = s.hypoParams.map Prod.fst := by
  intro pts
  induction pts with
  | nil => intro s; rfl
  | cons pos rest ih =>
    intro s
    rw [runScanOk_cons, ih]
    show (applyPos s pos).hypoParams.map Prod.fst = _
    rw [applyPos_hypoParams, updateValues_keys]

theorem alookup_runScanOk_llh (g : List (String × ParamSpec) → LLHData) :
    ∀ (pts : List (List (String × ℚ))) (s : ScanState),
      (∀ pos ∈ pts, "llh" ∉ pos.map Prod.fst) →
      alookup "llh" (runScanOk g pts s).steps =
        (alookup "llh" s.steps).map fun l =>
          l ++ ((runScanOk g pts s).trace.drop s.trace.length).map
            fun tr => (g tr).llh.getLast?.getD 0 := by
  intro pts
  induction pts with
  | nil =>
    intro s _
    rw [runScanOk_nil]
    simp only [List.drop_length, List.map_nil, List.append_nil]
    rcases alookup "llh" s.steps <;> rfl
  | cons pos rest ih =>
    intro s hllh
    rw [runScanOk_cons]
    have hpos : "llh" ∉ pos.map Prod.fst := hllh pos (List.mem_cons_self pos rest)
    have hrest : ∀ p ∈ rest, "llh" ∉ p.map Prod.fst :=
      fun p hp => hllh p (List.mem_cons_of_mem pos hp)
    rw [ih _ hrest, alookup_appendStep, alookup_applyPos_steps,
      filter_key_eq_nil hpos]
    obtain ⟨tl, htl, _⟩ := runScanOk_trace g rest
      { hypoParams := (applyPos s pos).hypoParams,
        steps := appendStep (applyPos s pos).steps "llh"
          ((g (applyPos s pos).hypoParams).llh.getLast?.getD 0),
        trace := (applyPos s pos).trace ++ [(applyPos s pos).hypoParams] }
    rw [htl]
    simp only [applyPos_trace]
    have hdropS : ((s.trace ++ [(applyPos s pos).hypoParams]) ++ tl).drop s.trace.length =
        (applyPos s pos).hypoParams :: tl := by
      rw [List.append_assoc, List.drop_left]
      rfl
    have hdropInner : ((s.trace ++ [(applyPos s pos).hypoParams]) ++ tl).drop
        (s.trace ++ [(applyPos s pos).hypoParams]).length = tl := List.drop_left _ _
    rw [hdropS, hdropInner]
    rcases alookup "llh" s.steps with _ | l
    · rfl
    · simp [List.append_assoc]

theorem alookup_runScanOk_key (g : List (String × ParamSpec) → LLHData) (k : String)
    (hk : k ≠ "llh") :
    ∀ (pts : List (List (String × ℚ))) (s : ScanState),
      alookup k (runScanOk g pts s).steps =
        (alookup k s.steps).map fun l =>
          l ++ pts.flatMap fun pos => (pos.filter fun kv => kv.1 = k).map Prod.snd := by
  intro pts
  induction pts with
  | nil =>
    intro s
    rw [runScanOk_nil]
    rcases alookup k s.steps <;> simp
  | cons pos rest ih =>
    intro s
    rw [runScanOk_cons, ih, alookup_appendStep, alookup_applyPos_steps]
    rcases alookup k s.steps with _ | l
    · simp
    · simp [hk, List.append_assoc]

theorem runScanOk_fixed (g : List (String × ParamSpec) → LLHData) (k : String) :
    ∀ (pts : List (List (String × ℚ))) (s : ScanState),
      (alookup k (runScanOk g pts s).hypoParams).map ParamSpec.fixed =
          (alookup k s.hypoParams).map ParamSpec.fixed ∧
        ∀ tr ∈ (runScanOk g pts s).trace.drop s.trace.length,
          (alookup k tr).map ParamSpec.fixed = (alookup k s.hypoParams).map ParamSpec.fixed := by
  intro pts
  induction pts with
  | nil =>
    intro s
    exact ⟨rfl, by simp [runScanOk_nil, List.drop_length]⟩
  | cons pos rest ih =>
    intro s
    rw [runScanOk_cons]
    have hstep : (alookup k (applyPos s pos).hypoParams).map ParamSpec.fixed =
        (alookup k s.hypoParams).map ParamSpec.fixed := by
      rw [applyPos_hypoParams, alookup_updateValues]
      rcases alookup k s.hypoParams with _ | p
      · rfl
      · simp [setVal_fixed]
    obtain ⟨ih1, ih2⟩ := ih
      { hypoParams := (applyPos s pos).hypoParams,
        steps := appendStep (applyPos s pos).steps "llh"
          ((g (applyPos s pos).hypoParams).llh.getLast?.getD 0),
        trace := (applyPos s pos).trace ++ [(applyPos s pos).hypoParams] }
    constructor
    · rw [ih1]
      exact hstep
    · intro tr htr
      obtain ⟨tl, htl, _⟩ := runScanOk_trace g rest
        { hypoParams := (applyPos s pos).hypoParams,
          steps := appendStep (applyPos s pos).steps "llh"
            ((g (applyPos s pos).hypoParams).llh.getLast?.getD 0),
          trace := (applyPos s pos).trace ++ [(applyPos s pos).hypoParams] }
      rw [htl] at htr ih2
      simp only [applyPos_trace] at htr ih2
      rw [List.append_assoc, List.singleton_append, List.drop_left] at htr
      have ih2' : ∀ tr ∈ tl,
          (alookup k tr).map ParamSpec.fixed = (alookup k s.hypoParams).map ParamSpec.fixed := by
        intro tr' htr'
        have := ih2 tr' (by simpa using htr')
        rw [this, hstep]
      rcases List.mem_cons.mp htr with h | h
      · subst h
        exact hstep
      · exact ih2' tr h

theorem runScanOk_inputs (g : List (String × ParamSpec) → LLHData) :
    ∀ (pts : List (List (String × ℚ))) (s : ScanState),
      (∀ pos ∈ pts, ∀ kv ∈ pos, kv.1 ∈ s.hypoParams.map Prod.fst) →
      (∀ pos ∈ pts, (pos.map Prod.fst).Nodup) →
      List.Forall₂
        (fun pos tr => ∀ kv ∈ pos, ∃ p, alookup kv.1 tr = some p ∧ p.value = kv.2)
        pts ((runScanOk g pts s).trace.drop s.trace.length) := by
  intro pts
  induction pts with
  | nil =>
    intro s _ _
    rw [runScanOk_nil, List.drop_length]
    exact List.Forall₂.nil
  | cons pos rest ih =>
    intro s hkeys hnd
    rw [runScanOk_cons]
    obtain ⟨tl, htl, _⟩ := runScanOk_trace g rest
      { hypoParams := (applyPos s pos).hypoParams,
        steps := appendStep (applyPos s pos).steps "llh"
          ((g (applyPos s pos).hypoParams).llh.getLast?.getD 0),
        trace := (applyPos s pos).trace ++ [(applyPos s pos).hypoParams] }
    rw [htl]
    simp only [applyPos_trace]
    have hdropS : ((s.trace ++ [(applyPos s pos).hypoParams]) ++ tl).drop s.trace.length =
        (applyPos s pos).hypoParams :: tl := by
      rw [List.append_assoc, List.drop_left]
      rfl
    rw [hdropS]
    refine List.Forall₂.cons ?_ ?_
    · intro kv hkv
      rw [applyPos_hypoParams, alookup_updateValues]
      rcases hs : alookup kv.1 s.hypoParams with _ | p
      · have : (alookup kv.1 s.hypoParams).isSome := (alookup_isSome_iff _ _).mpr
          (hkeys pos (List.mem_cons_self pos rest) kv hkv)
        rw [hs] at this
        cases this
      · have hla : lastAssign kv.1 pos = some kv.2 :=
          lastAssign_of_nodup (hnd pos (List.mem_cons_self pos rest)) hkv
        rw [hla]
        exact ⟨setVal p (some kv.2), rfl, rfl⟩
    · have ihr := ih
        { hypoParams := (applyPos s pos).hypoParams,
          steps := appendStep (applyPos s pos).steps "llh"
            ((g (applyPos s pos).hypoParams).llh.getLast?.getD 0),
          trace := (applyPos s pos).trace ++ [(applyPos s pos).hypoParams] }
        (by
          intro p hp kv hkv
          show kv.1 ∈ (applyPos s pos).hypoParams.map Prod.fst
          rw [applyPos_hypoParams, updateValues_keys]
          exact hkeys p (List.mem_cons_of_mem pos hp) kv hkv)
        (fun p hp => hnd p (List.mem_cons_of_mem pos hp))
      rw [htl] at ihr
      simp only [applyPos_trace] at ihr
      rwa [List.drop_left] at ihr

/-! ### Cartesian-product lemmas (`itertools.product`) -/

theorem sum_map_const (l : List α) (c : ℕ) : (l.map fun _ => c).sum = l.length * c := by
  induction l with
  | nil => simp
  | cons a rest ih => simp [ih, Nat.succ_mul, Nat.add_comm]

theorem listProd_length : ∀ (lss : List (List α)),
    (listProd lss).length = (lss.map List.length).prod := by
  intro lss
  induction lss with
  | nil => rfl
  | cons xs rest ih =>
    show (xs.flatMap fun x => (listProd rest).map (x :: ·)).length = _
    rw [List.length_flatMap]
    have hcg : List.map (List.length ∘ fun x => (listProd rest).map (x :: ·)) xs =
        List.map (fun _ => (listProd rest).length) xs :=
      List.map_congr_left fun x _ => by simp [Function.comp]
    rw [hcg, sum_map_const, ih]
    simp [List.prod_cons]

theorem mem_listProd : ∀ {lss : List (List α)} {p : List α},
    p ∈ listProd lss ↔ List.Forall₂ (fun x xs => x ∈ xs) p lss := by
  intro lss
  induction lss with
  | nil =>
    intro p
    simp [listProd, List.forall₂_nil_right_iff]
  | cons xs rest ih =>
    intro p
    cases p with
    | nil =>
      simp [listProd, List.forall₂_nil_left_iff]
    | cons a p' =>
      simp [listProd, List.forall₂_cons, ih]

theorem listProd_eq_nil_of_mem : ∀ {lss : List (List α)}, [] ∈ lss → listProd lss = [] := by
  intro lss
  induction lss with
  | nil => intro h; cases h
  | cons xs rest ih =>
    intro h
    rcases List.mem_cons.mp h with h | h
    · subst h
      rfl
    · simp [listProd, ih h]

theorem pairwise_flatMap {R : β → β → Prop} {f : α → List β} : ∀ {l : List α},
    (∀ a ∈ l, (f a).Pairwise R) →
    l.Pairwise (fun a b => ∀ x ∈ f a, ∀ y ∈ f b, R x y) →
    (l.flatMap f).Pairwise R := by
  intro l
  induction l with
  | nil => intro _ _; exact List.Pairwise.nil
  | cons a rest ih =>
    intro h1 h2
    rw [List.flatMap_cons, List.pairwise_append]
    rw [List.pairwise_cons] at h2
    refine ⟨h1 a (List.mem_cons_self a rest),
      ih (fun b hb => h1 b (List.mem_cons_of_mem a hb)) h2.2, ?_⟩
    intro x hx y hy
    obtain ⟨b, hb, hyb⟩ := List.mem_flatMap.mp hy
    exact h2.1 b hb x hx y hyb

theorem listProd_lex {r : β → β → Prop} {f : α → β} : ∀ (lss : List (List α)),
    (∀ xs ∈ lss, xs.Pairwise fun a b => r (f a) (f b)) →
    (listProd lss).Pairwise fun p q => List.Lex r (p.map f) (q.map f) := by
  intro lss
  induction lss with
  | nil => intro _; simp [listProd]
  | cons xs rest ih =>
    intro h
    show (xs.flatMap fun x => (listProd rest).map (x :: ·)).Pairwise _
    apply pairwise_flatMap
    · intro x _
      rw [List.pairwise_map]
      exact (ih fun l hl => h l (List.mem_cons_of_mem xs hl)).imp
        fun hpq => List.Lex.cons hpq
    · refine (h xs (List.mem_cons_self xs rest)).imp ?_
      intro a b hab p' hp' q' hq'
      obtain ⟨p, _, hp1⟩ := List.mem_map.mp hp'
      obtain ⟨q, _, hq1⟩ := List.mem_map.mp hq'
      subst hp1; subst hq1
      exact List.Lex.rel hab

theorem forall₂_mem_keys : ∀ {pos : List (String × ℚ)} {qs : List (String × ParamSpec)},
    List.Forall₂ (fun kv l => kv ∈ l) pos
      (qs.map fun q => q.2.steps.map fun st => (q.1, st)) →
    pos.map Prod.fst = qs.map Prod.fst := by
  intro pos qs
  induction qs generalizing pos with
  | nil =>
    intro h
    rw [List.map_nil] at h
    cases h
    rfl
  | cons q qs' ih =>
    intro h
    rw [List.map_cons] at h
    cases h with
    | cons ha ht =>
      rename_i a pos'
      obtain ⟨st, _, heq⟩ := List.mem_map.mp ha
      rw [List.map_cons, ← heq, List.map_cons, ih ht]

/-! ### Sorting by parameter name -/

theorem sortedAtm_perm (m : List (String × ParamSpec)) : (sortedAtm m).Perm m :=
  List.perm_insertionSort _ m

theorem sortedNames_perm (m : List (String × ParamSpec)) :
    (sortedNames m).Perm (m.map Prod.fst) :=
  (sortedAtm_perm m).map Prod.fst

theorem sortedNames_pairwise_le (m : List (String × ParamSpec)) :
    (sortedNames m).Pairwise fun a b : String => a.data ≤ b.data :=
  List.pairwise_map.mpr (List.sorted_insertionSort _ m)

theorem string_eq_of_data_eq {a b : String} (h : a.data = b.data) : a = b := by
  cases a
  cases b
  exact congrArg String.mk h

theorem sortedNames_pairwise_lt (m : List (String × ParamSpec))
    (hnd : (m.map Prod.fst).Nodup) :
    (sortedNames m).Pairwise fun a b : String => a.data < b.data := by
  have h1 := sortedNames_pairwise_le m
  have h2 : (sortedNames m).Nodup := ((sortedNames_perm m).nodup_iff).mpr hnd
  exact ((h1.and h2).imp fun h => lt_of_le_of_ne h.1 fun hd => h.2 (string_eq_of_data_eq hd))

/-! ### Miscellaneous counting lemmas -/

theorem sum_map_ones {l : List α} {f : α → ℕ} (h : ∀ x ∈ l, f x = 1) :
    (l.map f).sum = l.length := by
  induction l with
  | nil => rfl
  | cons a rest ih =>
    simp [h a (List.mem_cons_self a rest),
      ih fun x hx => h x (List.mem_cons_of_mem a hx), Nat.add_comm]

theorem exists_val_of_mem_keys {k : String} {pos : List (String × ℚ)}
    (h : k ∈ pos.map Prod.fst) : ∃ v, (k, v) ∈ pos := by
  obtain ⟨kv, hkv, h1⟩ := List.mem_map.mp h
  have h2 : (kv.1, kv.2) ∈ pos := hkv
  rw [h1] at h2
  exact ⟨kv.2, h2⟩

theorem fix_atm_params_eq_map (atmNames : List String) (ps : List (String × ParamSpec)) :
    fix_atm_params atmNames ps =
      ps.map fun q => (q.1, if q.1 ∈ atmNames then { q.2 with fixed := true } else q.2) := by
  unfold fix_atm_params
  apply List.map_congr_left
  intro q _
  by_cases h : q.1 ∈ atmNames <;> simp [h]

theorem alookup_fix_atm_params (atmNames : List String) (ps : List (String × ParamSpec))
    (k : String) :
    alookup k (fix_atm_params atmNames ps) =
      (alookup k ps).map fun p => if k ∈ atmNames then { p with fixed := true } else p := by
  rw [fix_atm_params_eq_map]
  exact alookup_keyed_map (fun k p => if k ∈ atmNames then { p with fixed := true } else p) ps k

/-! ### The initial accumulator and the points of a scan -/

theorem alookup_append (k : String) (l1 l2 : List (String × α)) :
    alookup k (l1 ++ l2) =
      match alookup k l1 with
      | some v => some v
      | none => alookup k l2 := by
  induction l1 with
  | nil => rfl
  | cons q rest ih =>
    by_cases h : q.1 = k <;> simp [alookup, h, ih]

theorem initSteps_keys (m : List (String × ParamSpec)) :
    (initSteps m).map Prod.fst = m.map Prod.fst ++ ["llh"] := by
  simp [initSteps, List.map_map, Function.comp]

theorem alookup_initSteps_key {m : List (String × ParamSpec)} {k : String}
    (hk : k ∈ m.map Prod.fst) : alookup k (initSteps m) = some [] := by
  rw [initSteps, alookup_append]
  have h1 : alookup k (m.map fun q => (q.1, ([] : List ℚ))) =
      (alookup k m).map fun _ => [] :=
    alookup_keyed_map (fun _ _ => []) m k
  rcases hs : alookup k m with _ | p
  · have : (alookup k m).isSome := (alookup_isSome_iff m k).mpr hk
    rw [hs] at this
    cases this
  · rw [h1, hs]
    rfl

theorem alookup_initSteps_llh {m : List (String × ParamSpec)}
    (h : "llh" ∉ m.map Prod.fst) : alookup "llh" (initSteps m) = some [] := by
  rw [initSteps, alookup_append]
  have h1 : alookup "llh" (m.map fun q => (q.1, ([] : List ℚ))) =
      (alookup "llh" m).map fun _ => [] :=
    alookup_keyed_map (fun _ _ => []) m "llh"
  rcases hs : alookup "llh" m with _ | p
  · rw [h1, hs]
    rfl
  · have : ("llh" : String) ∈ m.map Prod.fst := (alookup_isSome_iff m "llh").mp (by rw [hs]; rfl)
    exact absurd this h

theorem scanPoints_names {m : List (String × ParamSpec)} :
    ∀ pos ∈ scanPoints m, pos.map Prod.fst = sortedNames m := by
  intro pos hpos
  have h := mem_listProd.mp hpos
  exact forall₂_mem_keys h

theorem flatMap_filter_content {k : String} : ∀ {pts : List (List (String × ℚ))},
    (∀ pos ∈ pts, (pos.map Prod.fst).Nodup ∧ ∃ v, (k, v) ∈ pos) →
    (pts.flatMap fun pos => (pos.filter fun kv => kv.1 = k).map Prod.snd) =
      pts.map fun pos => (alookup k pos).getD 0 := by
  intro pts
  induction pts with
  | nil => intro _; rfl
  | cons pos rest ih =>
    intro h
    obtain ⟨hnd, v, hv⟩ := h pos (List.mem_cons_self pos rest)
    have h1 : pos.filter (fun kv => kv.1 = k) = [(k, v)] := filter_key_singleton hnd hv
    have h2 : alookup k pos = some v := alookup_of_mem_nodup hnd hv
    simp only [List.flatMap_cons, List.map_cons, h1, h2,
      ih fun p hp => h p (List.mem_cons_of_mem pos hp)]
    rfl

/-- One unfolding step of the scan loop, with the exception states explicit. -/
theorem runScanAux_cons (f : List (String × ParamSpec) → Except Unit LLHData)
    (pos : List (String × ℚ)) (rest : List (List (String × ℚ))) (s : ScanState) :
    runScanAux f (pos :: rest) s =
      match f (applyPos s pos).hypoParams with
      | .error _ =>
        .error { hypoParams := (applyPos s pos).hypoParams,
                 steps := (applyPos s pos).steps,
                 trace := (applyPos s pos).trace ++ [(applyPos s pos).hypoParams] }
      | .ok d =>
        match d.llh.getLast? with
        | none =>
          .error { hypoParams := (applyPos s pos).hypoParams,
                   steps := (applyPos s pos).steps,
                   trace := (applyPos s pos).trace ++ [(applyPos s pos).hypoParams] }
        | some v =>
          runScanAux f rest
            { hypoParams := (applyPos s pos).hypoParams,
              steps := appendStep (applyPos s pos).steps "llh" v,
              trace := (applyPos s pos).trace ++ [(applyPos s pos).hypoParams] } := rfl

/-- Content of the accumulator after a full exception-free run from the
initial state: the `llh` row holds, in order, the last trajectory element of
each evaluator invocation, and each scanned parameter's row holds, in order,
that parameter's grid value at each point. -/
theorem final_steps_lookup (g : List (String × ParamSpec) → LLHData)
    (hypo m : List (String × ParamSpec)) (pts : List (List (String × ℚ)))
    (hnd : (m.map Prod.fst).Nodup) (hllh : "llh" ∉ m.map Prod.fst)
    (hpts : ∀ pos ∈ pts, pos.map Prod.fst = sortedNames m) :
    alookup "llh" (runScanOk g pts (initState hypo m)).steps =
        some (((runScanOk g pts (initState hypo m)).trace).map
          fun tr => (g tr).llh.getLast?.getD 0) ∧
      ∀ k ∈ m.map Prod.fst,
        alookup k (runScanOk g pts (initState hypo m)).steps =
          some (pts.map fun pos => (alookup k pos).getD 0) := by
  have hnotin : ∀ pos ∈ pts, "llh" ∉ pos.map Prod.fst := by
    intro pos hpos hmem
    rw [hpts pos hpos] at hmem
    exact hllh (((sortedNames_perm m).mem_iff).mp hmem)
  constructor
  · rw [alookup_runScanOk_llh g pts _ hnotin]
    simp only [initState, alookup_initSteps_llh hllh, Option.map_some', List.nil_append,
      List.length_nil, List.drop_zero]
  · intro k hk
    have hk2 : k ≠ "llh" := fun he => hllh (he ▸ hk)
    rw [alookup_runScanOk_key g k hk2 pts _]
    simp only [initState, alookup_initSteps_key hk, Option.map_some', List.nil_append]
    rw [flatMap_filter_content]
    intro pos hpos
    constructor
    · rw [hpts pos hpos]
      exact ((sortedNames_perm m).nodup_iff).mpr hnd
    · apply exists_val_of_mem_keys
      rw [hpts pos hpos]
      exact ((sortedNames_perm m).mem_iff).mpr hk

/-! ### Claims -/

/-- C10: if the set of scanned atmospheric parameters is empty, the driver
raises no error: `product()` of zero sequences yields exactly one empty scan
point, the Objective Evaluator is invoked exactly once — on the parameter
collection untouched by any grid fixing — and the accumulator holds only the
`llh` key with exactly that one likelihood value. -/
theorem c10_empty_paramset (g : List (String × ParamSpec) → LLHData)
    (hypo : List (String × ParamSpec)) (htraj : ∀ p, (g p).llh ≠ []) :
    scanPoints [] = [[]] ∧
    runScan (okEval g) hypo [] =
      .ok { hypoParams := hypo,
            steps := [("llh", [(g hypo).llh.getLast?.getD 0])],
            trace := [hypo] } := by
  refine ⟨rfl, ?_⟩
  rw [runScan, runScanAux_okEval g htraj]
  rfl

/-- Witness for C10 at the concrete nuisance collection `hypoC10` and the
constant evaluator. -/
theorem c10_empty_paramset_witness :
    scanPoints [] = [[]] ∧
    runScan (okEval gConst) hypoC10 [] =
      .ok { hypoParams := hypoC10,
            steps := [("llh", [(gConst hypoC10).llh.getLast?.getD 0])],
            trace := [hypoC10] } :=
  c10_empty_paramset gConst hypoC10 fun _ => by simp [gConst]

/-- C6 counterexample: a scanned parameter (`w` in `atmC6`) has an empty
expanded sequence, yet the scan does not fail fast with any error: the run
returns normally in the initial state — zero evaluator invocations (empty
trace) and zero result rows — refuting the claimed `EmptyScanError`. -/
theorem c6_counterexample :
    runScan fErr hypoC10 atmC6 = .ok (initState hypoC10 atmC6) ∧
    (initState hypoC10 atmC6).trace = [] ∧
    getSeq (initState hypoC10 atmC6).steps "w" = [] ∧
    getSeq (initState hypoC10 atmC6).steps "llh" = [] := by
  exact ⟨rfl, rfl, rfl, rfl⟩

/-- C6 (amended): if any scanned parameter's expanded sequence is empty, the
Cartesian product is empty, so the driver silently evaluates zero scan
points and appends zero rows, completing without error (no `EmptyScanError`
exists in the code); an empty parameter set does not fail either — it yields
one scan point (see C10). -/
theorem c6_empty_sequence (f : List (String × ParamSpec) → Except Unit LLHData)
    (hypo m : List (String × ParamSpec)) (hq : ∃ q ∈ m, q.2.steps = []) :
    scanPoints m = [] ∧ runScan f hypo m = .ok (initState hypo m) := by
  obtain ⟨q, hqm, hsteps⟩ := hq
  have h2 : q ∈ sortedAtm m := ((sortedAtm_perm m).mem_iff).mpr hqm
  have h3 : (q.2.steps.map fun st => (q.1, st)) ∈ steplist m :=
    List.mem_map_of_mem _ h2
  rw [hsteps] at h3
  have h4 : scanPoints m = [] := listProd_eq_nil_of_mem h3
  exact ⟨h4, by rw [runScan, h4]; rfl⟩

/-- Witness for C6 (amended) at the concrete configuration `atmC6`. -/
theorem c6_empty_sequence_witness :
    (∃ q ∈ atmC6, q.2.steps = []) ∧
    (scanPoints atmC6 = [] ∧ runScan fErr hypoC10 atmC6 = .ok (initState hypoC10 atmC6)) :=
  ⟨⟨("w", mkP 0 []), by decide, rfl⟩,
   c6_empty_sequence fErr hypoC10 atmC6 ⟨("w", mkP 0 []), by decide, rfl⟩⟩

/-- C3 counterexample: on the two-point scan `atmC3` an evaluator that
raises at the first point aborts the whole run: the recorded claim state
shows exactly one evaluator invocation (trace length 1 of 2 points), an
empty `llh` sequence — no sentinel of any kind — and the second point is
never evaluated, refuting "records that point as failed ... and continues
the scan". -/
theorem c3_counterexample :
    runScan fErr atmC3 atmC3 = .error errC3 ∧
    (scanPoints atmC3).length = 2 ∧
    errC3.trace.length = 1 ∧
    getSeq errC3.steps "llh" = [] := by
  exact ⟨rfl, rfl, rfl, rfl⟩

/-- C3 (amended): the driver has no per-point failure handling.  If the
Objective Evaluator raises at some scan point (or returns an empty
trajectory, so that `llh_data['llh'][-1]` raises), the exception propagates:
the failing point is the `(i+1)`-st and last evaluator invocation, it
contributes no `llh` row (no sentinel is recorded for it), and no subsequent
point is evaluated. -/
theorem c3_abort_on_failure (f : List (String × ParamSpec) → Except Unit LLHData) :
    ∀ (pts : List (List (String × ℚ))) (s s' : ScanState),
      (∀ pos ∈ pts, "llh" ∉ pos.map Prod.fst) →
      runScanAux f pts s = .error s' →
      ∃ i, i < pts.length ∧ s'.trace.length = s.trace.length + i + 1 ∧
        (alookup "llh" s'.steps).map List.length =
          (alookup "llh" s.steps).map fun l => l.length + i := by
  intro pts
  induction pts with
  | nil =>
    intro s s' _ h
    cases h
  | cons pos rest ih =>
    intro s s' hllh h
    have hpos : "llh" ∉ pos.map Prod.fst := hllh pos (List.mem_cons_self pos rest)
    have herr : ∀ (st : ScanState),
        st = { hypoParams := (applyPos s pos).hypoParams,
               steps := (applyPos s pos).steps,
               trace := (applyPos s pos).trace ++ [(applyPos s pos).hypoParams] } →
        s' = st →
        ∃ i, i < (pos :: rest).length ∧ s'.trace.length = s.trace.length + i + 1 ∧
          (alookup "llh" s'.steps).map List.length =
            (alookup "llh" s.steps).map fun l => l.length + i := by
      intro st hst hs'
      subst hs'
      subst hst
      refine ⟨0, by simp, ?_, ?_⟩
      · simp [applyPos_trace]
      · rw [alookup_applyPos_steps, filter_key_eq_nil hpos]
        rcases alookup "llh" s.steps <;> simp
    rw [runScanAux_cons] at h
    split at h
    · exact herr _ rfl (Except.error.inj h).symm
    · split at h
      · exact herr _ rfl (Except.error.inj h).symm
      · obtain ⟨i, hi, htr, hlen⟩ := ih _ s'
          (fun p hp => hllh p (List.mem_cons_of_mem pos hp)) h
        refine ⟨i + 1, by simpa using Nat.succ_lt_succ hi, ?_, ?_⟩
        · rw [htr]
          simp only [applyPos_trace]
          simp [Nat.add_assoc, Nat.add_comm 1 i]
        · rw [hlen, alookup_appendStep, alookup_applyPos_steps, filter_key_eq_nil hpos]
          rcases alookup "llh" s.steps <;> simp [Nat.add_assoc, Nat.add_comm 1 i]

/-- Witness for C3 (amended): applying it to the concrete aborted run. -/
theorem c3_abort_on_failure_witness :
    (∀ pos ∈ scanPoints atmC3, "llh" ∉ pos.map Prod.fst) ∧
    (∃ i, i < (scanPoints atmC3).length ∧
      errC3.trace.length = (initState atmC3 atmC3).trace.length + i + 1 ∧
      (alookup "llh" errC3.steps).map List.length =
        (alookup "llh" (initState atmC3 atmC3).steps).map fun l => l.length + i) :=
  ⟨by decide, c3_abort_on_failure fErr (scanPoints atmC3) (initState atmC3 atmC3) errC3
    (by decide) (by rfl)⟩

/-- C4 counterexample: in the state reached when the evaluator raises on the
first point of the `atmC4` scan (a partial failure of that point's
evaluation), the scanned-parameter key `q` already holds one value while
`llh` holds none — the parallel sequences have different lengths, refuting
the claim that the balance invariant holds "in any state reachable through a
partial failure of a point's evaluation". -/
theorem c4_counterexample :
    runScan fErr atmC4 atmC4 = .error errC4 ∧
    getSeq errC4.steps "q" = [4] ∧
    getSeq errC4.steps "llh" = [] ∧
    (getSeq errC4.steps "q").length ≠ (getSeq errC4.steps "llh").length :=
  ⟨rfl, rfl, rfl, by decide⟩

/-- C4 (amended): after each fully processed scan point the balance
invariant does hold: for every prefix of `n` points of an exception-free
run, every key of the accumulator (each scanned parameter and `llh`) holds a
sequence of length exactly `n`; in particular a complete scan over `N`
points leaves every key with exactly `N` values.  Mid-point states reached
through a partial failure violate it (see the counterexample). -/
theorem c4_row_balance (g : List (String × ParamSpec) → LLHData)
    (hypo m : List (String × ParamSpec)) (htraj : ∀ p, (g p).llh ≠ [])
    (hnd : (m.map Prod.fst).Nodup) (hllh : "llh" ∉ m.map Prod.fst) :
    ∀ n ≤ (scanPoints m).length,
      ∃ s, runScanAux (okEval g) ((scanPoints m).take n) (initState hypo m) = .ok s ∧
        s.trace.length = n ∧ ∀ kl ∈ s.steps, kl.2.length = n := by
  intro n hn
  have hpts : ∀ pos ∈ (scanPoints m).take n, pos.map Prod.fst = sortedNames m :=
    fun pos hpos => scanPoints_names pos (List.mem_of_mem_take hpos)
  have htake : ((scanPoints m).take n).length = n := by
    rw [List.length_take]
    exact min_eq_left hn
  refine ⟨runScanOk g ((scanPoints m).take n) (initState hypo m),
    runScanAux_okEval g htraj _ _, ?_, ?_⟩
  · obtain ⟨tl, htl, hlen⟩ := runScanOk_trace g ((scanPoints m).take n) (initState hypo m)
    rw [htl]
    show ((initState hypo m).trace ++ tl).length = n
    simp [initState, hlen, htake]
  · intro kl hkl
    have hkeys : (runScanOk g ((scanPoints m).take n) (initState hypo m)).steps.map Prod.fst =
        m.map Prod.fst ++ ["llh"] := by
      rw [runScanOk_steps_keys]
      exact initSteps_keys m
    have hndk : ((runScanOk g ((scanPoints m).take n) (initState hypo m)).steps.map
        Prod.fst).Nodup := by
      rw [hkeys]
      refine List.Nodup.append hnd (List.nodup_singleton _) ?_
      intro a ha hb
      rw [List.mem_singleton] at hb
      exact hllh (hb ▸ ha)
    have hl : alookup kl.1 (runScanOk g ((scanPoints m).take n) (initState hypo m)).steps =
        some kl.2 := alookup_of_mem_nodup hndk hkl
    have hk1 : kl.1 ∈ m.map Prod.fst ++ ["llh"] := by
      rw [← hkeys]
      exact List.mem_map_of_mem Prod.fst hkl
    obtain ⟨hfl, hfk⟩ := final_steps_lookup g hypo m ((scanPoints m).take n) hnd hllh hpts
    rcases List.mem_append.mp hk1 with hk | hk
    · rw [hfk kl.1 hk] at hl
      have : kl.2 = ((scanPoints m).take n).map fun pos => (alookup kl.1 pos).getD 0 :=
        (Option.some.inj hl).symm
      rw [this, List.length_map, htake]
    · rw [List.mem_singleton] at hk
      rw [hk] at hl
      rw [hfl] at hl
      have : kl.2 = ((runScanOk g ((scanPoints m).take n) (initState hypo m)).trace).map
          fun tr => (g tr).llh.getLast?.getD 0 := (Option.some.inj hl).symm
      obtain ⟨tl, htl, hlen⟩ := runScanOk_trace g ((scanPoints m).take n) (initState hypo m)
      rw [this, List.length_map, htl]
      show ((initState hypo m).trace ++ tl).length = n
      simp [initState, hlen, htake]

/-- Witness for C4 (amended): the full two-point scan over `atmW1`. -/
theorem c4_row_balance_witness :
    (∀ p, (gConst p).llh ≠ []) ∧
    (∃ s, runScanAux (okEval gConst) ((scanPoints atmW1).take 2) (initState atmW1 atmW1) = .ok s ∧
      s.trace.length = 2 ∧ ∀ kl ∈ s.steps, kl.2.length = 2) :=
  ⟨fun _ => by simp [gConst],
   c4_row_balance gConst atmW1 atmW1 (fun _ => by simp [gConst]) (by decide) (by decide)
     2 (by decide)⟩

/-- C5 counterexample: the evaluator's returned fitted nuisance values are
discarded, not recorded.  `g5a` and `g5b` return different `fitted`
mappings but identical likelihood trajectories, and the whole scan output is
identical — so the ScanResult cannot contain the fitted trajectory, refuting
"appends ... together with the evaluator's returned trajectory of fitted
nuisance-parameter values". -/
theorem c5_counterexample :
    (g5a atmC5).fitted ≠ (g5b atmC5).fitted ∧
    runScan (okEval g5a) atmC5 atmC5 = runScan (okEval g5b) atmC5 atmC5 :=
  ⟨by decide, rfl⟩

/-- C5 (amended): for every scan point the driver appends the final
likelihood — the last element of the trajectory returned by the evaluator at
that point — under `llh`, and appends each scanned parameter's grid value
under that parameter's name; the evaluator's fitted nuisance values are not
recorded. -/
theorem c5_recorded_values (g : List (String × ParamSpec) → LLHData)
    (hypo m : List (String × ParamSpec)) (htraj : ∀ p, (g p).llh ≠ [])
    (hnd : (m.map Prod.fst).Nodup) (hllh : "llh" ∉ m.map Prod.fst) :
    ∃ s, runScan (okEval g) hypo m = .ok s ∧
      getSeq s.steps "llh" = s.trace.map (fun tr => (g tr).llh.getLast?.getD 0) ∧
      ∀ k ∈ m.map Prod.fst,
        getSeq s.steps k = (scanPoints m).map fun pos => (alookup k pos).getD 0 := by
  refine ⟨runScanOk g (scanPoints m) (initState hypo m),
    runScanAux_okEval g htraj _ _, ?_, ?_⟩
  · obtain ⟨h1, _⟩ := final_steps_lookup g hypo m (scanPoints m) hnd hllh scanPoints_names
    rw [getSeq, h1]
    rfl
  · intro k hk
    obtain ⟨_, h2⟩ := final_steps_lookup g hypo m (scanPoints m) hnd hllh scanPoints_names
    rw [getSeq, h2 k hk]
    rfl

/-- Witness for C5 (amended): the one-point scan over `atmC5` with
evaluator `g5a`. -/
theorem c5_recorded_values_witness :
    (∀ p, (g5a p).llh ≠ []) ∧
    (∃ s, runScan (okEval g5a) atmC5 atmC5 = .ok s ∧
      getSeq s.steps "llh" = s.trace.map (fun tr => (g5a tr).llh.getLast?.getD 0) ∧
      ∀ k ∈ atmC5.map Prod.fst,
        getSeq s.steps k = (scanPoints atmC5).map fun pos => (alookup k pos).getD 0) :=
  ⟨fun _ => by simp [g5a],
   c5_recorded_values g5a atmC5 atmC5 (fun _ => by simp [g5a]) (by decide) (by decide)⟩

/-- C7 counterexample: in `paramsC7` the scanned parameter `theta23` is
already marked `fixed` before the scan, yet the driver performs no
validation and does not reject the configuration — the run completes
normally; and after the scan has completed (no iteration in progress)
`theta23` is still `fixed = true`, refuting both "validates that no
parameter designated for scanning is already marked fixed (rejecting such
configurations)" and "marked `fixed = true` only for the duration of the
single iteration". -/
theorem c7_counterexample :
    (alookup "theta23" paramsC7).map ParamSpec.fixed = some true ∧
    (runScan (okEval gConst) (fix_atm_params ["theta23"] paramsC7) atmC7).isOk = true ∧
    (alookup "theta23"
        (resultState (runScan (okEval gConst)
          (fix_atm_params ["theta23"] paramsC7) atmC7)).hypoParams).map ParamSpec.fixed =
      some true :=
  ⟨rfl, rfl, rfl⟩

/-- C7 (amended): at initialization the driver forces every atmospheric
(scanned) parameter to `fixed = true` via `fix_atm_params`, regardless of
its prior state and with no validation or rejection; during the scan the
loop assigns only `value`, so every scanned parameter is `fixed = true` at
every evaluator invocation and is still fixed after the scan completes —
the flag is never toggled per iteration. -/
theorem c7_fixed_forever (g : List (String × ParamSpec) → LLHData)
    (atmNames : List String) (params m : List (String × ParamSpec))
    (htraj : ∀ p, (g p).llh ≠ []) (k : String) (hk : k ∈ atmNames) :
    ∃ s, runScan (okEval g) (fix_atm_params atmNames params) m = .ok s ∧
      (alookup k s.hypoParams).map ParamSpec.fixed =
        (alookup k params).map (fun _ => true) ∧
      ∀ tr ∈ s.trace, (alookup k tr).map ParamSpec.fixed =
        (alookup k params).map (fun _ => true) := by
  refine ⟨runScanOk g (scanPoints m) (initState (fix_atm_params atmNames params) m),
    runScanAux_okEval g htraj _ _, ?_, ?_⟩
  all_goals
    obtain ⟨h1, h2⟩ := runScanOk_fixed g k (scanPoints m)
      (initState (fix_atm_params atmNames params) m)
  · rw [h1]
    show (alookup k (fix_atm_params atmNames params)).map ParamSpec.fixed = _
    rw [alookup_fix_atm_params]
    rcases alookup k params with _ | p
    · rfl
    · simp [hk]
  · intro tr htr
    have htr0 : tr ∈ ((runScanOk g (scanPoints m)
        (initState (fix_atm_params atmNames params) m)).trace).drop
        ((initState (fix_atm_params atmNames params) m)).trace.length := by
      show tr ∈ List.drop 0 _
      rwa [List.drop_zero]
    rw [h2 tr htr0]
    show (alookup k (fix_atm_params atmNames params)).map ParamSpec.fixed = _
    rw [alookup_fix_atm_params]
    rcases alookup k params with _ | p
    · rfl
    · simp [hk]

/-- Witness for C7 (amended): the two-point scan over `atmC7` from the
pre-fixed configuration `paramsC7`. -/
theorem c7_fixed_forever_witness :
    ("theta23" : String) ∈ ["theta23"] ∧
    (∃ s, runScan (okEval gConst) (fix_atm_params ["theta23"] paramsC7) atmC7 = .ok s ∧
      (alookup "theta23" s.hypoParams).map ParamSpec.fixed =
        (alookup "theta23" paramsC7).map (fun _ => true) ∧
      ∀ tr ∈ s.trace, (alookup "theta23" tr).map ParamSpec.fixed =
        (alookup "theta23" paramsC7).map (fun _ => true)) :=
  ⟨by decide,
   c7_fixed_forever gConst ["theta23"] paramsC7 atmC7 (fun _ => by simp [gConst])
     "theta23" (by decide)⟩

/-- C8: isolation between consecutive points.  In an exception-free run the
parameter state passed to the Objective Evaluator at each point satisfies:
every scanned parameter's value equals that point's own grid value — the
loop overwrites every scanned parameter before invoking the evaluator, so no
scanned parameter retains the previous point's fixed value. -/
theorem c8_isolation (g : List (String × ParamSpec) → LLHData)
    (hypo m : List (String × ParamSpec)) (htraj : ∀ p, (g p).llh ≠ [])
    (hnd : (m.map Prod.fst).Nodup)
    (hsub : ∀ k ∈ m.map Prod.fst, k ∈ hypo.map Prod.fst) :
    ∃ s, runScan (okEval g) hypo m = .ok s ∧
      List.Forall₂
        (fun pos tr => ∀ kv ∈ pos, ∃ p, alookup kv.1 tr = some p ∧ p.value = kv.2)
        (scanPoints m) s.trace := by
  refine ⟨runScanOk g (scanPoints m) (initState hypo m),
    runScanAux_okEval g htraj _ _, ?_⟩
  have h := runScanOk_inputs g (scanPoints m) (initState hypo m)
    (by
      intro pos hpos kv hkv
      show kv.1 ∈ hypo.map Prod.fst
      apply hsub
      have h1 : kv.1 ∈ pos.map Prod.fst := List.mem_map_of_mem Prod.fst hkv
      rw [scanPoints_names pos hpos] at h1
      exact ((sortedNames_perm m).mem_iff).mp h1)
    (by
      intro pos hpos
      rw [scanPoints_names pos hpos]
      exact ((sortedNames_perm m).nodup_iff).mpr hnd)
  have hdrop : ((runScanOk g (scanPoints m) (initState hypo m)).trace).drop
      ((initState hypo m)).trace.length =
      (runScanOk g (scanPoints m) (initState hypo m)).trace := by
    show List.drop 0 _ = _
    rw [List.drop_zero]
  rwa [hdrop] at h

/-- Witness for C8 at the two-parameter scan `atmW1`. -/
theorem c8_isolation_witness :
    (∀ p, (gConst p).llh ≠ []) ∧
    (∃ s, runScan (okEval gConst) atmW1 atmW1 = .ok s ∧
      List.Forall₂
        (fun pos tr => ∀ kv ∈ pos, ∃ p, alookup kv.1 tr = some p ∧ p.value = kv.2)
        (scanPoints atmW1) s.trace) :=
  ⟨fun _ => by simp [gConst],
   c8_isolation gConst atmW1 atmW1 (fun _ => by simp [gConst]) (by decide)
     (fun k hk => hk)⟩

/-- C9: the persisted output bundles the three input settings documents (for
provenance), the Asimov reference dataset built once before scanning from
the fixed parameter collection, and — keyed under the data-hierarchy and
hypothesis-hierarchy tags — the full `steps` accumulator of the scan. -/
theorem c9_output_bundle {σ τ : Type} (ts ms gs : σ)
    (asimovBuild : List (String × ParamSpec) → τ) (dataTag hypoTag : String)
    (atmNames : List String) (params m : List (String × ParamSpec))
    (g : List (String × ParamSpec) → LLHData) (htraj : ∀ p, (g p).llh ≠ [])
    (hne : scanPoints m ≠ []) :
    ∃ r s, runFull ts ms gs asimovBuild dataTag hypoTag atmNames params m (okEval g) =
        .ok r ∧
      runScanAux (okEval g) (scanPoints m)
        (initState (fix_atm_params atmNames params) m) = .ok s ∧
      r.templateSettings = ts ∧ r.minimizerSettings = ms ∧ r.gridSettings = gs ∧
      r.dataTag = dataTag ∧ r.hypoTag = hypoTag ∧
      r.asimovData = asimovBuild (fix_atm_params atmNames params) ∧
      r.scan = some s.steps := by
  have hbridge := runScanAux_okEval g htraj (scanPoints m)
    (initState (fix_atm_params atmNames params) m)
  have hB : ¬ ((scanPoints m).isEmpty = true) := fun h => hne (by simpa using h)
  refine ⟨{ templateSettings := ts, minimizerSettings := ms, gridSettings := gs,
            dataTag := dataTag, hypoTag := hypoTag,
            asimovData := asimovBuild (fix_atm_params atmNames params),
            scan := some (runScanOk g (scanPoints m)
              (initState (fix_atm_params atmNames params) m)).steps },
    runScanOk g (scanPoints m) (initState (fix_atm_params atmNames params) m),
    ?_, hbridge, rfl, rfl, rfl, rfl, rfl, rfl, rfl⟩
  rw [runFull, hbridge]
  show Except.ok _ = Except.ok _
  rw [if_neg hB]

/-- Witness for C9 at a fully concrete configuration. -/
theorem c9_output_bundle_witness :
    scanPoints atmW1 ≠ [] ∧
    (∃ r s, runFull (1 : ℕ) 2 3 (fun _ => (0 : ℚ)) "data_NH" "hypo_NH" ["a", "b"]
        atmW1 atmW1 (okEval gConst) = .ok r ∧
      runScanAux (okEval gConst) (scanPoints atmW1)
        (initState (fix_atm_params ["a", "b"] atmW1) atmW1) = .ok s ∧
      r.templateSettings = 1 ∧ r.minimizerSettings = 2 ∧ r.gridSettings = 3 ∧
      r.dataTag = "data_NH" ∧ r.hypoTag = "hypo_NH" ∧
      r.asimovData = (fun _ => (0 : ℚ)) (fix_atm_params ["a", "b"] atmW1) ∧
      r.scan = some s.steps) :=
  ⟨by decide,
   c9_output_bundle 1 2 3 (fun _ => (0 : ℚ)) "data_NH" "hypo_NH" ["a", "b"] atmW1 atmW1
     gConst (fun _ => by simp [gConst]) (by decide)⟩

/-- C1: with non-empty parameter set and non-empty expanded sequences, the
driver enumerates exactly the full Cartesian product: the number of scan
points equals the product of the sequence lengths; a point is visited iff it
picks one value from each parameter's sequence (in sorted-name position);
every visited point lists the parameters in alphabetically sorted name
order; and — for strictly increasing grids, as the Step Expander produces —
the visiting order is strictly lexicographic on the value tuples read in
sorted-name order, which is exactly "the last parameter in sorted order
varies fastest".  The number of evaluator invocations and of rows appended
under `llh` and under every scanned parameter all equal the product. -/
theorem c1_enumeration (g : List (String × ParamSpec) → LLHData)
    (hypo m : List (String × ParamSpec)) (htraj : ∀ p, (g p).llh ≠ [])
    (_hm : m ≠ []) (_hsteps : ∀ q ∈ m, q.2.steps ≠ [])
    (hnd : (m.map Prod.fst).Nodup) (hllh : "llh" ∉ m.map Prod.fst) :
    ∃ s, runScan (okEval g) hypo m = .ok s ∧
      (scanPoints m).length = (m.map fun q => q.2.steps.length).prod ∧
      (∀ pos, pos ∈ scanPoints m ↔
        List.Forall₂ (fun kv l => kv ∈ l) pos (steplist m)) ∧
      (∀ pos ∈ scanPoints m, pos.map Prod.fst = sortedNames m) ∧
      (sortedNames m).Pairwise (fun a b : String => a.data < b.data) ∧
      ((∀ l ∈ steplist m, (l.map Prod.snd).Pairwise (· < ·)) →
        (scanPoints m).Pairwise fun p q =>
          List.Lex (· < ·) (p.map Prod.snd) (q.map Prod.snd)) ∧
      s.trace.length = (scanPoints m).length ∧
      (getSeq s.steps "llh").length = (scanPoints m).length ∧
      ∀ k ∈ m.map Prod.fst, (getSeq s.steps k).length = (scanPoints m).length := by
  obtain ⟨hfl, hfk⟩ := final_steps_lookup g hypo m (scanPoints m) hnd hllh scanPoints_names
  obtain ⟨tl, htl, hlen⟩ := runScanOk_trace g (scanPoints m) (initState hypo m)
  have htrace : (runScanOk g (scanPoints m) (initState hypo m)).trace.length =
      (scanPoints m).length := by
    rw [htl]
    show ((initState hypo m).trace ++ tl).length = _
    simp [initState, hlen]
  refine ⟨runScanOk g (scanPoints m) (initState hypo m),
    runScanAux_okEval g htraj _ _, ?_, fun pos => mem_listProd, scanPoints_names,
    sortedNames_pairwise_lt m hnd, ?_, htrace, ?_, ?_⟩
  · have h1 : (steplist m).map List.length = (sortedAtm m).map fun q => q.2.steps.length := by
      rw [steplist, List.map_map]
      exact List.map_congr_left fun q _ => by simp [Function.comp]
    rw [scanPoints, listProd_length, h1]
    exact ((sortedAtm_perm m).map fun q => q.2.steps.length).prod_eq
  · intro hsort
    exact listProd_lex (steplist m) fun xs hxs => List.pairwise_map.mp (hsort xs hxs)
  · rw [getSeq, hfl]
    show ((runScanOk g (scanPoints m) (initState hypo m)).trace.map _).length = _
    rw [List.length_map, htrace]
  · intro k hk
    rw [getSeq, hfk k hk]
    show ((scanPoints m).map _).length = _
    rw [List.length_map]

/-- Witness for C1 at the concrete two-parameter scan `atmW1`. -/
theorem c1_enumeration_witness :
    (atmW1 ≠ [] ∧ (∀ q ∈ atmW1, q.2.steps ≠ []) ∧ (atmW1.map Prod.fst).Nodup ∧
      "llh" ∉ atmW1.map Prod.fst) ∧
    (∃ s, runScan (okEval gConst) atmW1 atmW1 = .ok s ∧
      (scanPoints atmW1).length = (atmW1.map fun q => q.2.steps.length).prod ∧
      (∀ pos, pos ∈ scanPoints atmW1 ↔
        List.Forall₂ (fun kv l => kv ∈ l) pos (steplist atmW1)) ∧
      (∀ pos ∈ scanPoints atmW1, pos.map Prod.fst = sortedNames atmW1) ∧
      (sortedNames atmW1).Pairwise (fun a b : String => a.data < b.data) ∧
      ((∀ l ∈ steplist atmW1, (l.map Prod.snd).Pairwise (· < ·)) →
        (scanPoints atmW1).Pairwise fun p q =>
          List.Lex (· < ·) (p.map Prod.snd) (q.map Prod.snd)) ∧
      s.trace.length = (scanPoints atmW1).length ∧
      (getSeq s.steps "llh").length = (scanPoints atmW1).length ∧
      ∀ k ∈ atmW1.map Prod.fst, (getSeq s.steps k).length = (scanPoints atmW1).length) :=
  ⟨⟨by decide, by decide, by decide, by decide⟩,
   c1_enumeration gConst atmW1 atmW1 (fun _ => by simp [gConst]) (by decide) (by decide)
     (by decide) (by decide)⟩

/-- C2 counterexample: for the scenario grids the code enumerates the points
with `theta23` — not `deltam31` — varying fastest, because
`sorted(atm_params.items())` puts `deltam31` first (alphabetical order) and
`itertools.product` varies the *last* factor fastest.  The actual
enumeration is listed in full; it differs from the claimed
deltam31-fastest pattern already at the second point
(actual `deltam31 = 0.002, theta23 = 0.5`; claimed
`theta23 = 0.35, deltam31 = 0.003`). -/
theorem c2_counterexample :
    scanPoints atmC2 =
      [[("deltam31", mkRat 1 500), ("theta23", mkRat 7 20)],
       [("deltam31", mkRat 1 500), ("theta23", mkRat 1 2)],
       [("deltam31", mkRat 1 500), ("theta23", mkRat 13 20)],
       [("deltam31", mkRat 3 1000), ("theta23", mkRat 7 20)],
       [("deltam31", mkRat 3 1000), ("theta23", mkRat 1 2)],
       [("deltam31", mkRat 3 1000), ("theta23", mkRat 13 20)]] ∧
    (scanPoints atmC2).map (fun pos => alookup "deltam31" pos) ≠
      [some (mkRat 1 500), some (mkRat 3 1000), some (mkRat 1 500),
       some (mkRat 3 1000), some (mkRat 1 500), some (mkRat 3 1000)] := by
  exact ⟨by decide, by decide⟩

/-- C2 (amended): the spec's end-to-end scenario, with the order corrected
to what the code does.  The grids are the Step Expander's output for the
stated ranges and counts; the driver evaluates exactly 6 points, in the
order (deltam31=0.002, theta23=0.35), (0.002, 0.5), (0.002, 0.65),
(0.003, 0.35), (0.003, 0.5), (0.003, 0.65) — `theta23` varying fastest —
and the accumulator holds keys `theta23`, `deltam31` and `llh`, each with a
sequence of length 6, the parameter rows being the grid values in visiting
order. -/
theorem c2_scenario (g : List (String × ParamSpec) → LLHData)
    (htraj : ∀ p, (g p).llh ≠ []) :
    pTheta23.steps = expandSteps pTheta23.rangeLo pTheta23.rangeHi 3 ∧
    pDeltam31.steps = expandSteps pDeltam31.rangeLo pDeltam31.rangeHi 2 ∧
    (scanPoints atmC2).length = 6 ∧
    ∃ s, runScan (okEval g) atmC2 atmC2 = .ok s ∧
      s.trace.length = 6 ∧
      getSeq s.steps "theta23" =
        [mkRat 7 20, mkRat 1 2, mkRat 13 20, mkRat 7 20, mkRat 1 2, mkRat 13 20] ∧
      getSeq s.steps "deltam31" =
        [mkRat 1 500, mkRat 1 500, mkRat 1 500, mkRat 3 1000, mkRat 3 1000, mkRat 3 1000] ∧
      (getSeq s.steps "theta23").length = 6 ∧
      (getSeq s.steps "deltam31").length = 6 ∧
      (getSeq s.steps "llh").length = 6 := by
  have hexp1 : pTheta23.steps = expandSteps pTheta23.rangeLo pTheta23.rangeHi 3 := by
    show _ = expandSteps (mkRat 7 20) (mkRat 13 20) 3
    simp [expandSteps, List.range_succ, pTheta23, Rat.mkRat_eq_div]
    norm_num
  have hexp2 : pDeltam31.steps = expandSteps pDeltam31.rangeLo pDeltam31.rangeHi 2 := by
    show _ = expandSteps (mkRat 1 500) (mkRat 3 1000) 2
    simp [expandSteps, List.range_succ, pDeltam31, Rat.mkRat_eq_div]
    norm_num
  obtain ⟨hfl, hfk⟩ := final_steps_lookup g atmC2 atmC2 (scanPoints atmC2)
    (by decide) (by decide) scanPoints_names
  obtain ⟨tl, htl, hlen⟩ := runScanOk_trace g (scanPoints atmC2) (initState atmC2 atmC2)
  have htrace : (runScanOk g (scanPoints atmC2) (initState atmC2 atmC2)).trace.length = 6 := by
    rw [htl]
    show ((initState atmC2 atmC2).trace ++ tl).length = _
    have h6 : (scanPoints atmC2).length = 6 := by decide
    simp [initState, hlen, h6]
  have hth : getSeq (runScanOk g (scanPoints atmC2) (initState atmC2 atmC2)).steps "theta23" =
      [mkRat 7 20, mkRat 1 2, mkRat 13 20, mkRat 7 20, mkRat 1 2, mkRat 13 20] := by
    rw [getSeq, hfk "theta23" (by decide)]
    decide
  have hdm : getSeq (runScanOk g (scanPoints atmC2) (initState atmC2 atmC2)).steps "deltam31" =
      [mkRat 1 500, mkRat 1 500, mkRat 1 500, mkRat 3 1000, mkRat 3 1000, mkRat 3 1000] := by
    rw [getSeq, hfk "deltam31" (by decide)]
    decide
  refine ⟨hexp1, hexp2, by decide,
    runScanOk g (scanPoints atmC2) (initState atmC2 atmC2),
    runScanAux_okEval g htraj _ _, htrace, hth, hdm, ?_, ?_, ?_⟩
  · rw [hth]
    rfl
  · rw [hdm]
    rfl
  · rw [getSeq, hfl]
    show ((runScanOk g (scanPoints atmC2) (initState atmC2 atmC2)).trace.map _).length = _
    rw [List.length_map, htrace]

/-- Witness for C2 (amended) at the constant evaluator. -/
theorem c2_scenario_witness :
    (∀ p, (gConst p).llh ≠ []) ∧
    (pTheta23.steps = expandSteps pTheta23.rangeLo pTheta23.rangeHi 3 ∧
    pDeltam31.steps = expandSteps pDeltam31.rangeLo pDeltam31.rangeHi 2 ∧
    (scanPoints atmC2).length = 6 ∧
    ∃ s, runScan (okEval gConst) atmC2 atmC2 = .ok s ∧
      s.trace.length = 6 ∧
      getSeq s.steps "theta23" =
        [mkRat 7 20, mkRat 1 2, mkRat 13 20, mkRat 7 20, mkRat 1 2, mkRat 13 20] ∧
      getSeq s.steps "deltam31" =
        [mkRat 1 500, mkRat 1 500, mkRat 1 500, mkRat 3 1000, mkRat 3 1000, mkRat 3 1000] ∧
      (getSeq s.steps "theta23").length = 6 ∧
      (getSeq s.steps "deltam31").length = 6 ∧
      (getSeq s.steps "llh").length = 6) :=
  ⟨fun _ => by simp [gConst], c2_scenario gConst fun _ => by simp [gConst]⟩

end LLHScan
